import Mathlib

/-!
Verification of the StaticCodeMetrics core: the distance calculator
(`metrics/distance_ia.py`) and the dependency-extraction / matrix
pipeline described in the specification.  Labelled one-dimensional
tables (pandas Series) are modelled as association lists from string
labels to `Option ℚ`; a `none` value models a NaN cell produced by
label alignment.
-/

/-- A labelled series: ordered (label, value) pairs; `none` models NaN. -/
abbrev PSeries := List (String × Option ℚ)

/-- The ordered list of labels (the index) of a series. -/
def labelsOf (s : PSeries) : List String := s.map Prod.fst

/-- Addition on cell values: NaN propagates. -/
def optAdd : Option ℚ → Option ℚ → Option ℚ
  | some x, some y => some (x + y)
  | _, _ => none

/-- Lookup of a label's value in a series (first match). -/
def lookupVal (s : PSeries) (l : String) : Option (Option ℚ) :=
  s.lookup l

/-- Pandas-style addition of two series: with identical indices the
operation is positional; otherwise the result ranges over the union of
the labels, a label carried by both series maps to the sum of its two
values, and a label missing from either side maps to NaN. -/
def seriesAdd (a b : PSeries) : PSeries :=
  if labelsOf a = labelsOf b then
    List.zipWith (fun p q => (p.1, optAdd p.2 q.2)) a b
  else
    (labelsOf a ++ (labelsOf b).filter (fun l => l ∉ labelsOf a)).map
      (fun l =>
        (l, match lookupVal a l, lookupVal b l with
            | some x, some y => optAdd x y
            | _, _ => none))

/-- Elementwise subtraction of a scalar; NaN cells stay NaN. -/
def seriesSubScalar (s : PSeries) (c : ℚ) : PSeries :=
  s.map (fun p => (p.1, p.2.map (fun x => x - c)))

/-- Elementwise absolute value; NaN cells stay NaN. -/
def seriesAbs (s : PSeries) : PSeries :=
  s.map (fun p => (p.1, p.2.map (fun x => |x|)))

/-- Embedding of `DistanceIA._calculate_distance`
(`distance_ia.py`, line 22): `abs(abstractness + instability - 1)`. -/
def calculate_distance (abstractness instability : PSeries) : PSeries :=
  seriesAbs (seriesSubScalar (seriesAdd abstractness instability) 1)

/-- The mutable state of a `DistanceIA` object
(`distance_ia.py`, lines 11-15). -/
structure DistanceIA where
  dir_path : String
  instability_metric : Option PSeries
  abstractness_metric : Option PSeries
  distance : Option PSeries
deriving DecidableEq

/-- Embedding of `DistanceIA.plot_distance` (`distance_ia.py`,
lines 24-38): fetch both metrics from the collaborator
`get_instability_and_abstractness_metric`, store them, recompute the
distance from the freshly stored fields, and hand the distance series
to the renderer.  Returns the final object state together with the
series that is presented. -/
def plot_distance (dsu : String → PSeries × PSeries) (o : DistanceIA) :
    DistanceIA × PSeries :=
  let m := dsu o.dir_path
  let o' : DistanceIA :=
    { o with instability_metric := some m.1, abstractness_metric := some m.2 }
  let d := calculate_distance m.2 m.1
  ({ o' with distance := some d }, d)

/-! ### Helper lemmas about series operations -/

/-- The cell produced by the distance computation on aligned series. -/
def distCell (p q : String × Option ℚ) : String × Option ℚ :=
  (p.1, (optAdd p.2 q.2).map (fun s => |s - 1|))

theorem optAdd_comm (x y : Option ℚ) : optAdd x y = optAdd y x := by
  cases x <;> cases y <;> simp [optAdd, add_comm]

theorem abs_sub_zip (A I : PSeries) :
    seriesAbs (seriesSubScalar
        (List.zipWith (fun p q => (p.1, optAdd p.2 q.2)) A I) 1) =
      List.zipWith distCell A I := by
  induction A generalizing I with
  | nil => simp [seriesAbs, seriesSubScalar]
  | cons p A ih =>
    cases I with
    | nil => simp [seriesAbs, seriesSubScalar]
    | cons q I =>
      simp only [List.zipWith, seriesAbs, seriesSubScalar, List.map_cons] at *
      refine congrArg₂ List.cons ?_ (ih I)
      simp [distCell, Option.map_map]
      rfl

theorem calculate_distance_aligned (A I : PSeries)
    (h : labelsOf A = labelsOf I) :
    calculate_distance A I = List.zipWith distCell A I := by
  unfold calculate_distance seriesAdd
  rw [if_pos h]
  exact abs_sub_zip A I

theorem mem_zipWith_ex {α β γ : Type} {f : α → β → γ} {l₁ : List α}
    {l₂ : List β} {q : γ} (hq : q ∈ List.zipWith f l₁ l₂) :
    ∃ p ∈ l₁, ∃ p' ∈ l₂, q = f p p' := by
  induction l₁ generalizing l₂ with
  | nil => simp at hq
  | cons a l ih =>
    cases l₂ with
    | nil => simp at hq
    | cons b l' =>
      simp only [List.zipWith, List.mem_cons] at hq
      rcases hq with rfl | hq
      · exact ⟨a, by simp, b, by simp, rfl⟩
      · obtain ⟨p, hp, p', hp', rfl⟩ := ih hq
        exact ⟨p, by simp [hp], p', by simp [hp'], rfl⟩

theorem set_getElem?_self {α : Type} {l : List α} {k : ℕ} {a : α}
    (h : l[k]? = some a) : l.set k a = l := by
  induction l generalizing k with
  | nil => simp at h
  | cons x l ih =>
    cases k with
    | zero => simp at h; simp [h]
    | succ k => simp at h; simp [ih h]

theorem zipWith_set {α β γ : Type} (f : α → β → γ) (l₁ : List α)
    (l₂ : List β) (k : ℕ) (a : α) (b : β) :
    List.zipWith f (l₁.set k a) (l₂.set k b) =
      (List.zipWith f l₁ l₂).set k (f a b) := by
  induction l₁ generalizing l₂ k with
  | nil => simp
  | cons x l ih =>
    cases l₂ with
    | nil => simp
    | cons y l' =>
      cases k with
      | zero => simp [List.zipWith]
      | succ k => simp [List.zipWith, ih]

theorem lookupVal_eq_none (s : PSeries) (l : String)
    (h : l ∉ labelsOf s) : lookupVal s l = none := by
  induction s with
  | nil => rfl
  | cons p s ih =>
    have h1 : l ≠ p.1 := fun he => h (by simp [labelsOf, he])
    have h2 : l ∉ labelsOf s := fun hm => h (by simp [labelsOf]; right; simpa [labelsOf] using hm)
    have hb : (l == p.1) = false := beq_eq_false_iff_ne.mpr h1
    simpa [lookupVal, List.lookup, hb] using ih h2

theorem exists_lookupVal (s : PSeries) (l : String)
    (h : l ∈ labelsOf s) : ∃ v, lookupVal s l = some v := by
  induction s with
  | nil => simp [labelsOf] at h
  | cons p s ih =>
    by_cases hl : l = p.1
    · exact ⟨p.2, by simp [lookupVal, List.lookup, hl]⟩
    · have hb : (l == p.1) = false := beq_eq_false_iff_ne.mpr hl
      have hm : l ∈ labelsOf s := by
        have := (by simpa [labelsOf] using h : l = p.1 ∨ l ∈ List.map Prod.fst s)
        rcases this with he | hmem
        · exact absurd he hl
        · simpa [labelsOf] using hmem
      obtain ⟨v, hv⟩ := ih hm
      exact ⟨v, by simpa [lookupVal, List.lookup, hb] using hv⟩

theorem lookup_label_map (v : String → Option ℚ) (ls : List String)
    (l : String) (hl : l ∈ ls) :
    lookupVal (ls.map fun x => (x, v x)) l = some (v l) := by
  induction ls with
  | nil => simp at hl
  | cons x ls ih =>
    by_cases hx : l = x
    · subst hx; simp [lookupVal, List.lookup]
    · have hb : (l == x) = false := beq_eq_false_iff_ne.mpr hx
      simp [hx] at hl
      simpa [lookupVal, List.lookup, hb] using ih hl

theorem lookupVal_seriesSubScalar (s : PSeries) (c : ℚ) (l : String) :
    lookupVal (seriesSubScalar s c) l =
      (lookupVal s l).map (Option.map (fun x => x - c)) := by
  induction s with
  | nil => rfl
  | cons p s ih =>
    by_cases hx : l = p.1
    · simp [lookupVal, seriesSubScalar, List.lookup, hx]
    · have hb : (l == p.1) = false := beq_eq_false_iff_ne.mpr hx
      simpa [lookupVal, seriesSubScalar, List.lookup, hb] using ih

theorem lookupVal_seriesAbs (s : PSeries) (l : String) :
    lookupVal (seriesAbs s) l =
      (lookupVal s l).map (Option.map (fun x => |x|)) := by
  induction s with
  | nil => rfl
  | cons p s ih =>
    by_cases hx : l = p.1
    · simp [lookupVal, seriesAbs, List.lookup, hx]
    · have hb : (l == p.1) = false := beq_eq_false_iff_ne.mpr hx
      simpa [lookupVal, seriesAbs, List.lookup, hb] using ih

theorem labelsOf_seriesSubScalar (s : PSeries) (c : ℚ) :
    labelsOf (seriesSubScalar s c) = labelsOf s := by
  simp [labelsOf, seriesSubScalar]

theorem labelsOf_seriesAbs (s : PSeries) :
    labelsOf (seriesAbs s) = labelsOf s := by
  simp [labelsOf, seriesAbs]

theorem labels_set (s : PSeries) (k : ℕ) (lab : String)
    (v v' : Option ℚ) (h : s[k]? = some (lab, v)) :
    labelsOf (s.set k (lab, v')) = labelsOf s := by
  unfold labelsOf
  rw [List.map_set]
  apply set_getElem?_self
  rw [List.getElem?_map, h]
  rfl

/-! ### Concrete series from the test suite (`Test_DistanceIA.py`) -/

/-- The instability series `[.6, .0, .1, 1., .0, .5]` with the default
integer index, written as rationals over string labels. -/
def exInstability : PSeries :=
  [( "0", some (6/10)), ( "1", some 0), ( "2", some (1/10)),
   ( "3", some 1), ( "4", some 0), ( "5", some (5/10))]

/-- The abstractness series `[.3, 1., .0, 1., .8, .2]`. -/
def exAbstractness : PSeries :=
  [( "0", some (3/10)), ( "1", some 1), ( "2", some 0),
   ( "3", some 1), ( "4", some (8/10)), ( "5", some (2/10))]

/-- The expected distance series `[.1, .0, .9, 1., .2, .3]`. -/
def exDistance : PSeries :=
  [( "0", some (1/10)), ( "1", some 0), ( "2", some (9/10)),
   ( "3", some 1), ( "4", some (2/10)), ( "5", some (3/10))]

/-- C1: for every InstabilitySeries and AbstractnessSeries aligned on
the same index, the distance calculator returns the series with
`Distance(i) = |A(i) + I(i) - 1|` at every index, keeping the labels. -/
theorem dist_C1_formula (A I : PSeries) (h : labelsOf A = labelsOf I) :
    calculate_distance A I =
      List.zipWith
        (fun p q => (p.1, (optAdd p.2 q.2).map (fun s => |s - 1|))) A I :=
  calculate_distance_aligned A I h

/-- Witness for C1: on the test vectors `I = [.6, .0, .1, 1., .0, .5]`
and `A = [.3, 1., .0, 1., .8, .2]` the result is exactly
`[.1, .0, .9, 1., .2, .3]`. -/
theorem dist_C1_witness :
    labelsOf exAbstractness = labelsOf exInstability ∧
    calculate_distance exAbstractness exInstability = exDistance := by
  constructor
  · rfl
  · rw [dist_C1_formula exAbstractness exInstability rfl]
    norm_num [exInstability, exAbstractness, exDistance, optAdd,
      List.zipWith]

/-- C7: whenever all values of two aligned series lie in [0,1], every
value of the computed distance series lies in [0,1]. -/
theorem dist_C7_range (A I : PSeries) (h : labelsOf A = labelsOf I)
    (hA : ∀ p ∈ A, ∀ x : ℚ, p.2 = some x → 0 ≤ x ∧ x ≤ 1)
    (hI : ∀ p ∈ I, ∀ x : ℚ, p.2 = some x → 0 ≤ x ∧ x ≤ 1) :
    ∀ q ∈ calculate_distance A I, ∀ y : ℚ, q.2 = some y →
      0 ≤ y ∧ y ≤ 1 := by
  rw [calculate_distance_aligned A I h]
  intro q hq y hy
  obtain ⟨p, hp, p', hp', rfl⟩ := mem_zipWith_ex hq
  cases hx : p.2 with
  | none => simp [distCell, hx, optAdd] at hy
  | some a =>
    cases hx' : p'.2 with
    | none => simp [distCell, hx, hx', optAdd] at hy
    | some b =>
      simp [distCell, hx, hx', optAdd] at hy
      obtain ⟨h0, h1⟩ := hA p hp a hx
      obtain ⟨h0', h1'⟩ := hI p' hp' b hx'
      subst hy
      refine ⟨abs_nonneg _, abs_le.mpr ⟨by linarith, by linarith⟩⟩

/-- Witness for C7: both metrics at one half give a distance value that
lies within [0,1]. -/
theorem dist_C7_witness : (0 : ℚ) ≤ 0 ∧ (0 : ℚ) ≤ 1 := by
  have hval : ∀ p ∈ [( "x", some ((1:ℚ)/2))], ∀ x : ℚ,
      Prod.snd p = some x → 0 ≤ x ∧ x ≤ 1 := by
    intro p hp x hx
    simp at hp
    subst hp
    simp at hx
    subst hx
    norm_num
  have h := dist_C7_range [( "x", some (1/2))] [( "x", some (1/2))]
    rfl hval hval
  have hcalc : calculate_distance [( "x", some (1/2))]
      [( "x", some (1/2))] = [( "x", some 0)] := by
    rw [calculate_distance_aligned _ _ rfl]
    simp [distCell, optAdd, List.zipWith]
    norm_num
  exact h ( "x", some 0) (by rw [hcalc]; simp) 0 rfl

/-- C8: for aligned series, swapping the abstractness and instability
values stored at one index leaves the computed distance unchanged. -/
theorem dist_C8_swap (A I : PSeries) (h : labelsOf A = labelsOf I)
    (k : ℕ) (la li : String) (a b : Option ℚ)
    (hA : A[k]? = some (la, a)) (hI : I[k]? = some (li, b)) :
    calculate_distance (A.set k (la, b)) (I.set k (li, a)) =
      calculate_distance A I := by
  have hlabA : labelsOf (A.set k (la, b)) = labelsOf A :=
    labels_set A k la a b hA
  have hlabI : labelsOf (I.set k (li, a)) = labelsOf I :=
    labels_set I k li b a hI
  rw [calculate_distance_aligned _ _ (by rw [hlabA, hlabI]; exact h),
    calculate_distance_aligned A I h, zipWith_set]
  have hcell : distCell (la, b) (li, a) = distCell (la, a) (li, b) := by
    simp [distCell, optAdd_comm]
  rw [hcell]
  apply set_getElem?_self
  rw [List.getElem?_zipWith, hA, hI]

/-- Witness for C8: swapping the two metric values of the first file of
the test vectors leaves the distance series unchanged. -/
theorem dist_C8_witness :
    calculate_distance (exAbstractness.set 0 ( "0", some (6/10)))
        (exInstability.set 0 ( "0", some (3/10))) =
      calculate_distance exAbstractness exInstability :=
  dist_C8_swap exAbstractness exInstability rfl 0 "0" "0"
    (some (3/10)) (some (6/10)) rfl rfl

/-- C9: `plot_distance` recomputes the metrics from the collaborator on
every call, so the presented distance series does not depend on any
previously stored object state: two objects with the same directory
path yield the same distance series under the same collaborator. -/
theorem dist_C9_recompute (dsu : String → PSeries × PSeries)
    (s₁ s₂ : DistanceIA) (h : s₁.dir_path = s₂.dir_path) :
    (plot_distance dsu s₁).2 = (plot_distance dsu s₂).2 := by
  simp [plot_distance, h]

/-- Witness for C9: a stale `_distance` field does not influence the
presented series. -/
theorem dist_C9_witness :
    (plot_distance (fun _ => (exInstability, exAbstractness))
        ⟨ "", none, none, none⟩).2 =
      (plot_distance (fun _ => (exInstability, exAbstractness))
        ⟨ "", some exInstability, some exAbstractness,
          some [( "junk", some 5)]⟩).2 :=
  dist_C9_recompute (fun _ => (exInstability, exAbstractness)) _ _ rfl

theorem labels_label_map (v : String → Option ℚ) (ls : List String) :
    labelsOf (ls.map fun x => (x, v x)) = ls := by
  induction ls with
  | nil => rfl
  | cons x ls ih => simpa [labelsOf] using ih

theorem labelsOf_seriesAdd_ne (A I : PSeries)
    (hne : labelsOf A ≠ labelsOf I) :
    labelsOf (seriesAdd A I) =
      labelsOf A ++ (labelsOf I).filter (fun l => l ∉ labelsOf A) := by
  unfold seriesAdd
  rw [if_neg hne]
  exact labels_label_map _ _

theorem lookupVal_seriesAdd_ne (A I : PSeries)
    (hne : labelsOf A ≠ labelsOf I) (l : String)
    (hl : l ∈ labelsOf A ∨ l ∈ labelsOf I) :
    lookupVal (seriesAdd A I) l =
      some (match lookupVal A l, lookupVal I l with
            | some x, some y => optAdd x y
            | _, _ => none) := by
  unfold seriesAdd
  rw [if_neg hne]
  apply lookup_label_map
  rcases hl with h | h
  · exact List.mem_append_left _ h
  · by_cases hA : l ∈ labelsOf A
    · exact List.mem_append_left _ hA
    · refine List.mem_append_right _ ?_
      rw [List.mem_filter]
      exact ⟨h, by simpa using hA⟩

/-- C10: on series whose indices differ, `_calculate_distance` does not
fail and does not substitute 0: the result ranges over the union of the
two label sets, a label carried by both series maps to `|A + I - 1|`,
and a label missing from either side maps to NaN. -/
theorem dist_C10_mismatch (A I : PSeries)
    (hne : labelsOf A ≠ labelsOf I) :
    (∀ l, l ∈ labelsOf (calculate_distance A I) ↔
        l ∈ labelsOf A ∨ l ∈ labelsOf I) ∧
    (∀ l (a b : ℚ), lookupVal A l = some (some a) →
        lookupVal I l = some (some b) →
        lookupVal (calculate_distance A I) l = some (some |a + b - 1|)) ∧
    (∀ l, l ∈ labelsOf A → l ∉ labelsOf I →
        lookupVal (calculate_distance A I) l = some none) ∧
    (∀ l, l ∉ labelsOf A → l ∈ labelsOf I →
        lookupVal (calculate_distance A I) l = some none) := by
  have hlab : labelsOf (calculate_distance A I) =
      labelsOf A ++ (labelsOf I).filter (fun l => l ∉ labelsOf A) := by
    unfold calculate_distance
    rw [labelsOf_seriesAbs, labelsOf_seriesSubScalar,
      labelsOf_seriesAdd_ne A I hne]
  have hchain : ∀ l, lookupVal (calculate_distance A I) l =
      ((lookupVal (seriesAdd A I) l).map
          (Option.map (fun x => x - 1))).map
        (Option.map (fun x => |x|)) := by
    intro l
    unfold calculate_distance
    rw [lookupVal_seriesAbs, lookupVal_seriesSubScalar]
  refine ⟨?_, ?_, ?_, ?_⟩
  · intro l
    rw [hlab]
    simp [List.mem_filter]
    tauto
  · intro l a b hA hI
    have hmemA : l ∈ labelsOf A := by
      by_contra hc
      rw [lookupVal_eq_none A l hc] at hA
      exact Option.noConfusion hA
    rw [hchain l, lookupVal_seriesAdd_ne A I hne l (Or.inl hmemA)]
    simp [hA, hI, optAdd]
  · intro l hmA hmI
    obtain ⟨v, hv⟩ := exists_lookupVal A l hmA
    have hnone := lookupVal_eq_none I l hmI
    rw [hchain l, lookupVal_seriesAdd_ne A I hne l (Or.inl hmA)]
    simp [hv, hnone]
  · intro l hmA hmI
    obtain ⟨v, hv⟩ := exists_lookupVal I l hmI
    have hnone := lookupVal_eq_none A l hmA
    rw [hchain l, lookupVal_seriesAdd_ne A I hne l (Or.inr hmI)]
    simp [hv, hnone]

/-- A series with labels a, c, used to exercise misaligned indices. -/
def misA : PSeries := [( "a", some (1/2)), ( "c", some 1)]

/-- A series with labels a, b, used to exercise misaligned indices. -/
def misI : PSeries := [( "a", some (1/4)), ( "b", some 0)]

/-- Witness for C10: on indices a, c versus a, b the shared label a
carries `|1/2 + 1/4 - 1| = 1/4` while c and b map to NaN, and both
appear in the result. -/
theorem dist_C10_witness :
    labelsOf misA ≠ labelsOf misI ∧
    lookupVal (calculate_distance misA misI) "a" = some (some (1/4)) ∧
    lookupVal (calculate_distance misA misI) "c" = some none ∧
    lookupVal (calculate_distance misA misI) "b" = some none ∧
    "b" ∈ labelsOf (calculate_distance misA misI) := by
  have hne : labelsOf misA ≠ labelsOf misI := by
    simp [labelsOf, misA, misI]
  obtain ⟨h1, h2, h3, h4⟩ := dist_C10_mismatch misA misI hne
  refine ⟨hne, ?_, ?_, ?_, ?_⟩
  · have := h2 "a" (1/2) (1/4)
      (by simp [misA, lookupVal, List.lookup])
      (by simp [misI, lookupVal, List.lookup])
    rw [this]
    norm_num
  · exact h3 "c" (by simp [misA, labelsOf]) (by simp [misI, labelsOf])
  · exact h4 "b" (by simp [misA, labelsOf]) (by simp [misI, labelsOf])
  · exact (h1 "b").mpr (Or.inr (by simp [misI, labelsOf]))

/-! ### Dependency Extractor

The module `instability_metric.py` itself is not part of the sources;
only its test suite is.  The extractor is therefore modelled from the
specification and checked against the behaviour the tests pin down. -/

/-- Modelled from the spec: a whitespace character that may precede the
include directive ("matching must tolerate arbitrary leading
whitespace"). -/
def isWsChar (c : Char) : Bool := c == ' ' || c == '\t'

/-- Modelled from the spec: strip the arbitrary leading whitespace
tolerated before `#include`. -/
def dropLeadingWs : List Char → List Char
  | [] => []
  | c :: rest => if isWsChar c then dropLeadingWs rest else c :: rest

/-- Modelled from the spec: consume an expected keyword and return the
remainder of the line, or fail. -/
def matchKeyword : List Char → List Char → Option (List Char)
  | [], l => some l
  | _, [] => none
  | k :: ks, c :: cs => if c = k then matchKeyword ks cs else none

/-- Modelled from the spec: capture exactly the text up to the closing
delimiter; a line with no closing delimiter is not recognized. -/
def captureName (close : Char) (l : List Char) : Option (List Char) :=
  let name := l.takeWhile (fun c => c != close)
  if name.length < l.length then some name else none

/-- Modelled from the spec: classify one line, `#include "name"` as a
user include (`true`) and `#include <name>` as a standard-library
include (`false`); every other line is ignored. -/
def classifyLine (line : String) : Option (Bool × String) :=
  match matchKeyword (( "#include ").toList) (dropLeadingWs line.toList) with
  | none => none
  | some rest =>
    match rest with
    | '"' :: r => (captureName '"' r).map (fun n => (true, ⟨n⟩))
    | '<' :: r => (captureName '>' r).map (fun n => (false, ⟨n⟩))
    | _ => none

/-- One step of the scan: append a recognized name to the user or the
standard-library list, keeping original order and duplicates. -/
def includeStep (acc : List String × List String) (line : String) :
    List String × List String :=
  match classifyLine line with
  | some (true, n) => (acc.1 ++ [n], acc.2)
  | some (false, n) => (acc.1, acc.2 ++ [n])
  | none => acc

/-- The name captured from a user-include line, if any. -/
def userCapture (line : String) : Option String :=
  match classifyLine line with
  | some (true, n) => some n
  | _ => none

/-- The name captured from a standard-library-include line, if any. -/
def stdCapture (line : String) : Option String :=
  match classifyLine line with
  | some (false, n) => some n
  | _ => none

/-- Modelled from the spec: `_get_includes_of_file`.  Reading is an
external effect, modelled by a map from paths to the file's lines
(`none` = unreadable).  An empty or unreadable path does not raise: it
yields the default `([], [])` together with one warning; otherwise the
scan returns the two ordered include lists and no warning. -/
def get_includes_of_file (read : String → Option (List String))
    (path : String) : (List String × List String) × List String :=
  match (if path = "" then none else read path) with
  | none =>
    (([], []), [ "could not read file, returning default values"])
  | some ls => (ls.foldl includeStep ([], []), [])

theorem dropLeadingWs_ws_append (ws l : List Char)
    (h : ∀ c ∈ ws, isWsChar c) :
    dropLeadingWs (ws ++ l) = dropLeadingWs l := by
  induction ws with
  | nil => rfl
  | cons c ws ih =>
    have hc := h c (by simp)
    rw [List.cons_append]
    simp only [dropLeadingWs, hc, if_true]
    exact ih (fun x hx => h x (by simp [hx]))

theorem dropLeadingWs_not_ws (c : Char) (l : List Char)
    (h : isWsChar c = false) : dropLeadingWs (c :: l) = c :: l := by
  simp [dropLeadingWs, h]

theorem matchKeyword_append (k l : List Char) :
    matchKeyword k (k ++ l) = some l := by
  induction k with
  | nil => simp [matchKeyword]
  | cons c k ih => simp [matchKeyword, ih]

theorem takeWhile_until_close (close : Char) (name tail : List Char)
    (h : ∀ c ∈ name, c ≠ close) :
    (name ++ close :: tail).takeWhile (fun c => c != close) = name := by
  induction name with
  | nil => simp
  | cons c name ih =>
    have hc : c ≠ close := h c (by simp)
    simp [List.takeWhile_cons, hc, ih (fun x hx => h x (by simp [hx]))]

theorem captureName_append (close : Char) (name tail : List Char)
    (h : ∀ c ∈ name, c ≠ close) :
    captureName close (name ++ close :: tail) = some name := by
  simp only [captureName]
  rw [takeWhile_until_close close name tail h]
  have hlen : name.length < (name ++ close :: tail).length := by
    simp [List.length_append]
  simp [hlen]

theorem foldl_includeStep (lines : List String) (u s : List String) :
    lines.foldl includeStep (u, s) =
      (u ++ lines.filterMap userCapture,
       s ++ lines.filterMap stdCapture) := by
  induction lines generalizing u s with
  | nil => simp
  | cons line lines ih =>
    simp only [List.foldl_cons, List.filterMap_cons]
    cases hc : classifyLine line with
    | none => simp [includeStep, userCapture, stdCapture, hc, ih u s]
    | some p =>
      obtain ⟨b, n⟩ := p
      cases b
      · simp [includeStep, userCapture, stdCapture, hc, ih u (s ++ [n])]
      · simp [includeStep, userCapture, stdCapture, hc, ih (u ++ [n]) s]

theorem classifyLine_user_core (ws name tail : List Char)
    (hws : ∀ c ∈ ws, isWsChar c) (hn : ∀ c ∈ name, c ≠ '"') :
    classifyLine
        ⟨ws ++ (( "#include ").toList ++ '"' :: (name ++ '"' :: tail))⟩ =
      some (true, ⟨name⟩) := by
  unfold classifyLine
  have h0 : (⟨ws ++ (( "#include ").toList ++
      '"' :: (name ++ '"' :: tail))⟩ : String).toList =
      ws ++ (( "#include ").toList ++ '"' :: (name ++ '"' :: tail)) := rfl
  rw [h0, dropLeadingWs_ws_append _ _ hws]
  have h1 : dropLeadingWs (( "#include ").toList ++
      '"' :: (name ++ '"' :: tail)) =
      ( "#include ").toList ++ '"' :: (name ++ '"' :: tail) :=
    dropLeadingWs_not_ws '#' _ (by rfl)
  rw [h1, matchKeyword_append]
  show (captureName '"' (name ++ '"' :: tail)).map
      (fun n => (true, (⟨n⟩ : String))) = _
  rw [captureName_append _ _ _ hn]
  rfl

theorem classifyLine_std_core (ws name tail : List Char)
    (hws : ∀ c ∈ ws, isWsChar c) (hn : ∀ c ∈ name, c ≠ '>') :
    classifyLine
        ⟨ws ++ (( "#include ").toList ++ '<' :: (name ++ '>' :: tail))⟩ =
      some (false, ⟨name⟩) := by
  unfold classifyLine
  have h0 : (⟨ws ++ (( "#include ").toList ++
      '<' :: (name ++ '>' :: tail))⟩ : String).toList =
      ws ++ (( "#include ").toList ++ '<' :: (name ++ '>' :: tail)) := rfl
  rw [h0, dropLeadingWs_ws_append _ _ hws]
  have h1 : dropLeadingWs (( "#include ").toList ++
      '<' :: (name ++ '>' :: tail)) =
      ( "#include ").toList ++ '<' :: (name ++ '>' :: tail) :=
    dropLeadingWs_not_ws '#' _ (by rfl)
  rw [h1, matchKeyword_append]
  show (captureName '>' (name ++ '>' :: tail)).map
      (fun n => (false, (⟨n⟩ : String))) = _
  rw [captureName_append _ _ _ hn]
  rfl

/-- C4: a line `#include "name"` (arbitrary leading whitespace) is a
user include, a line `#include <name>` a standard-library include, the
captured text is exactly the text between the delimiters, the scan
keeps duplicates and original order while ignoring all other lines, and
the two-line example file yields `(["helper.h"], ["vector"])`. -/
theorem extract_C4 :
    (∀ ws name tail : List Char,
      (∀ c ∈ ws, isWsChar c) → (∀ c ∈ name, c ≠ '"') →
      classifyLine ⟨ws ++ ( "#include \"").toList ++ name ++ '"' :: tail⟩ =
        some (true, ⟨name⟩)) ∧
    (∀ ws name tail : List Char,
      (∀ c ∈ ws, isWsChar c) → (∀ c ∈ name, c ≠ '>') →
      classifyLine ⟨ws ++ ( "#include <").toList ++ name ++ '>' :: tail⟩ =
        some (false, ⟨name⟩)) ∧
    (∀ (read : String → Option (List String)) (path : String) lines,
      path ≠ "" → read path = some lines →
      get_includes_of_file read path =
        ((lines.filterMap userCapture, lines.filterMap stdCapture), [])) ∧
    get_includes_of_file
        (fun _ => some [ "#include <vector>", "#include \"helper.h\""])
        ( "main.cpp") =
      (([ "helper.h"], [ "vector"]), []) := by
  refine ⟨?_, ?_, ?_, ?_⟩
  · intro ws name tail hws hn
    have hkw : ( "#include \"").toList =
        ( "#include ").toList ++ ['"'] := rfl
    have hstr : (⟨ws ++ ( "#include \"").toList ++
        name ++ '"' :: tail⟩ : String) =
        ⟨ws ++ (( "#include ").toList ++ '"' :: (name ++ '"' :: tail))⟩ := by
      refine congrArg (fun l => (⟨l⟩ : String)) ?_
      simp [hkw, List.append_assoc]
    rw [hstr]
    exact classifyLine_user_core ws name tail hws hn
  · intro ws name tail hws hn
    have hkw : ( "#include <").toList =
        ( "#include ").toList ++ ['<'] := rfl
    have hstr : (⟨ws ++ ( "#include <").toList ++
        name ++ '>' :: tail⟩ : String) =
        ⟨ws ++ (( "#include ").toList ++ '<' :: (name ++ '>' :: tail))⟩ := by
      refine congrArg (fun l => (⟨l⟩ : String)) ?_
      simp [hkw, List.append_assoc]
    rw [hstr]
    exact classifyLine_std_core ws name tail hws hn
  · intro read path lines hpath hread
    unfold get_includes_of_file
    rw [if_neg hpath, hread]
    show (List.foldl includeStep ([], []) lines, ([] : List String)) =
      ((lines.filterMap userCapture, lines.filterMap stdCapture), [])
    rw [foldl_includeStep lines [] []]
    simp
  · decide

/-- Witness for C4: the two include forms on concrete lines. -/
theorem extract_C4_witness :
    classifyLine ( "  #include \"helper.h\"") = some (true, "helper.h") ∧
    classifyLine ( "#include <vector>") = some (false, "vector") := by
  constructor
  · have h := extract_C4.1 [' ', ' '] (( "helper.h").toList) []
      (by decide) (by decide)
    exact h
  · have h := extract_C4.2.1 [] (( "vector").toList) []
      (by decide) (by decide)
    exact h

/-- C5: for an empty path or an unreadable file the extractor does not
fail: it returns `([], [])` together with exactly one warning carrying
the text "could not read file, returning default values". -/
theorem extract_C5 (read : String → Option (List String)) (path : String)
    (h : path = "" ∨ read path = none) :
    get_includes_of_file read path =
      (([], []), [ "could not read file, returning default values"]) := by
  unfold get_includes_of_file
  rcases h with h | h
  · simp [h]
  · by_cases hp : path = ""
    · simp [hp]
    · simp [hp, h]

/-- Witness for C5: the empty path yields the default value and the
single warning. -/
theorem extract_C5_witness :
    get_includes_of_file (fun _ => none) "" =
      (([], []), [ "could not read file, returning default values"]) :=
  extract_C5 (fun _ => none) "" (Or.inl rfl)

/-! ### Dependency Matrix Builder and Instability Calculator

`instability_metric.py` is not among the sources; the matrix fill pass
(`_fill_include_matrix`), the standard-library column growth
(`_add_stl_includes`) and the instability formula are modelled from the
specification and checked against the expectations of the test suite. -/

/-- Modelled from the spec: position of a column label in the ordered
column list. -/
def colIndex : List String → String → Option ℕ
  | [], _ => none
  | c :: cs, n => if c = n then some 0 else (colIndex cs n).map (· + 1)

/-- Modelled from the spec: record one include edge: set the cell of
the named column to 1; a name with no matching column leaves the row
unchanged. -/
def setColumn (cols : List String) (row : List ℕ) (name : String) :
    List ℕ :=
  match colIndex cols name with
  | some j => row.set j 1
  | none => row

/-- Modelled from the spec: fill one user file's row from its extracted
user-include and standard-library-include lists. -/
def fillRow (cols : List String) (user std : List String)
    (row : List ℕ) : List ℕ :=
  (user ++ std).foldl (setColumn cols) row

/-- Modelled from the spec: `_fill_include_matrix`: starting from the
all-zero matrix, fill every user file's row from its include lists. -/
def fill_include_matrix (cols : List String)
    (incl : List (List String × List String)) : List (List ℕ) :=
  incl.map (fun p => fillRow cols p.1 p.2 (List.replicate cols.length 0))

theorem colIndex_lt_length (cols : List String) (n : String) (j : ℕ)
    (h : colIndex cols n = some j) :
    j < cols.length ∧ cols.getD j "" = n := by
  induction cols generalizing j with
  | nil => simp [colIndex] at h
  | cons c cs ih =>
    by_cases hc : c = n
    · simp [colIndex, hc] at h
      subst h
      simp [hc]
    · simp [colIndex, hc] at h
      obtain ⟨j', hj', rfl⟩ := h
      obtain ⟨h1, h2⟩ := ih j' hj'
      refine ⟨by simp only [List.length_cons]; omega, by simpa using h2⟩

theorem colIndex_eq_none (cols : List String) (n : String)
    (h : n ∉ cols) : colIndex cols n = none := by
  induction cols with
  | nil => rfl
  | cons c cs ih =>
    have hc : c ≠ n := fun he => h (by simp [he])
    simp [colIndex, hc, ih (fun hm => h (by simp [hm]))]

theorem colIndex_self (cols : List String) (j : ℕ)
    (hnd : cols.Nodup) (hj : j < cols.length) :
    colIndex cols (cols.getD j "") = some j := by
  induction cols generalizing j with
  | nil => simp at hj
  | cons c cs ih =>
    cases j with
    | zero => simp [colIndex]
    | succ j =>
      have hj' : j < cs.length := by simpa using hj
      have hnd' : cs.Nodup := (List.nodup_cons.mp hnd).2
      have hne : c ≠ cs.getD j "" := by
        intro he
        have hmem : cs.getD j "" ∈ cs := by
          rw [List.getD_eq_getElem _ _ hj']
          exact List.getElem_mem hj'
        rw [← he] at hmem
        exact (List.nodup_cons.mp hnd).1 hmem
      have ihj := ih j hnd' hj'
      have hgd : (c :: cs).getD (j + 1) "" = cs.getD j "" := by
        simp [List.getD]
      rw [hgd]
      simp only [colIndex]
      rw [if_neg hne, ihj]
      rfl

theorem getD_set_self (l : List ℕ) (j a : ℕ) (h : j < l.length) :
    (l.set j a).getD j 0 = a := by
  rw [List.getD_eq_getElem?_getD, List.getElem?_set]
  simp [h]

theorem getD_set_ne (l : List ℕ) (i j a : ℕ) (h : i ≠ j) :
    (l.set i a).getD j 0 = l.getD j 0 := by
  rw [List.getD_eq_getElem?_getD, List.getElem?_set, if_neg h,
    ← List.getD_eq_getElem?_getD]

theorem foldl_setColumn_getD (cols : List String) (names : List String)
    (row : List ℕ) (j : ℕ) (hnd : cols.Nodup) (hj : j < cols.length)
    (hlen : row.length = cols.length) :
    ((names.foldl (setColumn cols) row).getD j 0) =
      if cols.getD j "" ∈ names then 1 else row.getD j 0 := by
  induction names generalizing row with
  | nil => simp
  | cons n names ih =>
    rw [List.foldl_cons]
    have hlen' : (setColumn cols row n).length = cols.length := by
      unfold setColumn
      cases h : colIndex cols n <;> simp [hlen]
    rw [ih (setColumn cols row n) hlen']
    by_cases hcj : cols.getD j "" = n
    · have hcolj : colIndex cols n = some j := by
        rw [← hcj]
        exact colIndex_self cols j hnd hj
      by_cases hmem : cols.getD j "" ∈ names
      · rw [if_pos hmem, if_pos (List.mem_cons.mpr (Or.inr hmem))]
      · have hset : (setColumn cols row n).getD j 0 = 1 := by
          unfold setColumn
          rw [hcolj]
          exact getD_set_self row j 1 (by omega)
        rw [if_neg hmem, hset, if_pos (List.mem_cons.mpr (Or.inl hcj))]
    · by_cases hmem : cols.getD j "" ∈ names
      · rw [if_pos hmem, if_pos (List.mem_cons.mpr (Or.inr hmem))]
      · have hsame : (setColumn cols row n).getD j 0 = row.getD j 0 := by
          unfold setColumn
          cases h : colIndex cols n with
          | none => rfl
          | some j' =>
            obtain ⟨hj'len, hj'col⟩ := colIndex_lt_length cols n j' h
            have hne : j' ≠ j := by
              intro he
              rw [he] at hj'col
              exact hcj hj'col
            exact getD_set_ne row j' j 1 hne
        have hnotin : cols.getD j "" ∉ n :: names := by
          intro hmem'
          rcases List.mem_cons.mp hmem' with h | h
          · exact hcj h
          · exact hmem h
        rw [if_neg hmem, hsame, if_neg hnotin]

/-- C2: after the fill pass over the zero matrix, cell (i, j) is 1
exactly when the column-j label occurs in file i's user-include or
standard-library-include list, and 0 otherwise. -/
theorem matrix_C2_fill (cols : List String)
    (incl : List (List String × List String)) (i j : ℕ)
    (hnd : cols.Nodup) (hi : i < incl.length) (hj : j < cols.length) :
    ((fill_include_matrix cols incl).getD i []).getD j 0 =
      if cols.getD j "" ∈ (incl.getD i ([], [])).1 ∨
          cols.getD j "" ∈ (incl.getD i ([], [])).2 then 1 else 0 := by
  unfold fill_include_matrix
  have hi' : incl[i]? = some incl[i] := List.getElem?_eq_getElem hi
  have hmap : (incl.map
      (fun p => fillRow cols p.1 p.2
        (List.replicate cols.length 0))).getD i [] =
      fillRow cols (incl.getD i ([], [])).1 (incl.getD i ([], [])).2
        (List.replicate cols.length 0) := by
    simp [List.getD_eq_getElem?_getD, List.getElem?_map, hi']
  rw [hmap]
  unfold fillRow
  rw [foldl_setColumn_getD cols _ _ j hnd hj (by simp)]
  have hrep : (List.replicate cols.length (0 : ℕ)).getD j 0 = 0 := by
    rw [List.getD_eq_getElem?_getD, List.getElem?_replicate]
    by_cases h : j < cols.length <;> simp [h]
  simp only [List.mem_append, hrep]

/-- The user-file column labels of the test scenario. -/
def userCols : List String := [ "file0", "file1", "file2"]

/-- The full column labels (user plus discovered externals) of the test
scenario. -/
def testCols : List String :=
  [ "file0", "file1", "file2", "std_lib", "std_out"]

/-- The per-file (user, standard-library) include lists of the test
scenario in `Test_InstabilityMetric.py`. -/
def testIncl : List (List String × List String) :=
  [([], [ "std_lib"]), ([ "file1"], []),
   ([ "file1", "file2"], [ "std_out"])]

/-- Witness for C2: in the test scenario, file2's row carries a 1 in
the file1 column and a 0 in the file0 column. -/
theorem matrix_C2_witness :
    ((fill_include_matrix testCols testIncl).getD 2 []).getD 1 0 = 1 ∧
    ((fill_include_matrix testCols testIncl).getD 2 []).getD 0 0 = 0 := by
  constructor
  · rw [matrix_C2_fill testCols testIncl 2 1 (by decide) (by decide)
      (by decide)]
    decide
  · rw [matrix_C2_fill testCols testIncl 2 0 (by decide) (by decide)
      (by decide)]
    decide

/-- Modelled from the spec: append a column for a name unless a column
with that label already exists. -/
def appendNew (cols : List String) (name : String) : List String :=
  if name ∈ cols then cols else cols ++ [name]

/-- Modelled from the spec: process one file's standard-library include
list against the current column list. -/
def addNames (cols : List String) (names : List String) : List String :=
  names.foldl appendNew cols

/-- Modelled from the spec: the column labels after the
`_add_stl_includes` pass: scan the files in listing order and append
one new column per distinct standard-library name not seen before. -/
def add_stl_includes (cols : List String)
    (incl : List (List String × List String)) : List String :=
  incl.foldl (fun acc p => addNames acc p.2) cols

/-- The distinct external names of a name stream in first-discovery
order, skipping names already known as columns. -/
def newNames (cols : List String) : List String → List String
  | [] => []
  | n :: rest =>
    if n ∈ cols then newNames cols rest
    else n :: newNames (cols ++ [n]) rest

theorem addNames_eq (names cols : List String) :
    addNames cols names = cols ++ newNames cols names := by
  induction names generalizing cols with
  | nil => simp [addNames, newNames]
  | cons n rest ih =>
    by_cases hn : n ∈ cols
    · have h1 : addNames cols (n :: rest) = addNames cols rest := by
        simp [addNames, appendNew, hn]
      rw [h1, ih cols]
      simp [newNames, hn]
    · have h1 : addNames cols (n :: rest) = addNames (cols ++ [n]) rest := by
        simp [addNames, appendNew, hn]
      rw [h1, ih (cols ++ [n])]
      simp [newNames, hn]

theorem newNames_append (xs ys cols : List String) :
    newNames cols (xs ++ ys) =
      newNames cols xs ++ newNames (cols ++ newNames cols xs) ys := by
  induction xs generalizing cols with
  | nil => simp [newNames]
  | cons n xs ih =>
    by_cases hn : n ∈ cols
    · simp [newNames, hn, ih cols]
    · simp only [List.cons_append, newNames, if_neg hn, List.append_eq]
      rw [ih (cols ++ [n])]
      simp [List.append_assoc]

theorem add_stl_eq (incl : List (List String × List String))
    (cols : List String) :
    add_stl_includes cols incl =
      cols ++ newNames cols (incl.map Prod.snd).flatten := by
  induction incl generalizing cols with
  | nil => simp [add_stl_includes, newNames]
  | cons p incl ih =>
    have h1 : add_stl_includes cols (p :: incl) =
        add_stl_includes (addNames cols p.2) incl := by
      simp [add_stl_includes]
    rw [h1, ih (addNames cols p.2), addNames_eq]
    simp only [List.map_cons, List.flatten_cons]
    rw [newNames_append]
    simp [List.append_assoc]

theorem mem_newNames_not_cols (xs cols : List String) (m : String)
    (h : m ∈ newNames cols xs) : m ∉ cols := by
  induction xs generalizing cols with
  | nil => simp [newNames] at h
  | cons n xs ih =>
    by_cases hn : n ∈ cols
    · rw [newNames, if_pos hn] at h
      exact ih cols h
    · rw [newNames, if_neg hn] at h
      rcases List.mem_cons.mp h with rfl | h
      · exact hn
      · intro hc
        exact ih (cols ++ [n]) h (by simp [hc])

theorem newNames_nodup (xs cols : List String) :
    (newNames cols xs).Nodup := by
  induction xs generalizing cols with
  | nil => simp [newNames]
  | cons n xs ih =>
    by_cases hn : n ∈ cols
    · rw [newNames, if_pos hn]
      exact ih cols
    · rw [newNames, if_neg hn]
      refine List.nodup_cons.mpr ⟨?_, ih (cols ++ [n])⟩
      intro hmem
      exact mem_newNames_not_cols xs (cols ++ [n]) n hmem (by simp)

theorem mem_newNames (xs cols : List String) (m : String) :
    m ∈ newNames cols xs ↔ m ∈ xs ∧ m ∉ cols := by
  induction xs generalizing cols with
  | nil => simp [newNames]
  | cons n xs ih =>
    by_cases hn : n ∈ cols
    · rw [newNames, if_pos hn, ih cols]
      constructor
      · exact fun ⟨h1, h2⟩ => ⟨List.mem_cons.mpr (Or.inr h1), h2⟩
      · rintro ⟨h1, h2⟩
        rcases List.mem_cons.mp h1 with rfl | h1
        · exact absurd hn h2
        · exact ⟨h1, h2⟩
    · rw [newNames, if_neg hn]
      constructor
      · intro h
        rcases List.mem_cons.mp h with rfl | h
        · exact ⟨List.mem_cons.mpr (Or.inl rfl), hn⟩
        · obtain ⟨h1, h2⟩ := (ih (cols ++ [n])).mp h
          exact ⟨List.mem_cons.mpr (Or.inr h1),
            fun hc => h2 (by simp [hc])⟩
      · rintro ⟨h1, h2⟩
        rcases List.mem_cons.mp h1 with rfl | h1
        · exact List.mem_cons.mpr (Or.inl rfl)
        · by_cases hm : m = n
          · exact List.mem_cons.mpr (Or.inl hm)
          · refine List.mem_cons.mpr (Or.inr ?_)
            exact (ih (cols ++ [n])).mpr ⟨h1, by simp [h2, hm]⟩

theorem newNames_nil_of_known (xs cols : List String)
    (h : ∀ n ∈ xs, n ∈ cols) : newNames cols xs = [] := by
  induction xs with
  | nil => rfl
  | cons n xs ih =>
    rw [newNames, if_pos (h n (by simp))]
    exact ih (fun x hx => h x (by simp [hx]))

/-- C3: during the standard-library pass, files whose includes are all
already known add no column; the final column list is the original user
labels in unchanged order followed by the distinct external names in
first-discovery order, without duplicate labels. -/
theorem matrix_C3_columns (cols : List String)
    (incl : List (List String × List String)) (hnd : cols.Nodup) :
    ((∀ p ∈ incl, ∀ n ∈ p.2, n ∈ cols) →
      add_stl_includes cols incl = cols) ∧
    add_stl_includes cols incl =
      cols ++ newNames cols (incl.map Prod.snd).flatten ∧
    (add_stl_includes cols incl).take cols.length = cols ∧
    (add_stl_includes cols incl).Nodup ∧
    (∀ m, m ∈ add_stl_includes cols incl ↔
      m ∈ cols ∨ ∃ p ∈ incl, m ∈ p.2) := by
  have heq := add_stl_eq incl cols
  refine ⟨?_, heq, ?_, ?_, ?_⟩
  · intro hall
    rw [heq, newNames_nil_of_known]
    · simp
    · intro n hn
      rw [List.mem_flatten] at hn
      obtain ⟨l, hl, hnl⟩ := hn
      rw [List.mem_map] at hl
      obtain ⟨p, hp, rfl⟩ := hl
      exact hall p hp n hnl
  · rw [heq, List.take_left]
  · rw [heq]
    refine List.Nodup.append hnd (newNames_nodup _ _) ?_
    intro a ha hb
    exact mem_newNames_not_cols _ _ a hb ha
  · intro m
    rw [heq, List.mem_append, mem_newNames]
    constructor
    · rintro (h | ⟨h1, h2⟩)
      · exact Or.inl h
      · refine Or.inr ?_
        rw [List.mem_flatten] at h1
        obtain ⟨l, hl, hml⟩ := h1
        rw [List.mem_map] at hl
        obtain ⟨p, hp, rfl⟩ := hl
        exact ⟨p, hp, hml⟩
    · rintro (h | ⟨p, hp, hm⟩)
      · exact Or.inl h
      · by_cases hc : m ∈ cols
        · exact Or.inl hc
        · refine Or.inr ⟨?_, hc⟩
          rw [List.mem_flatten]
          exact ⟨p.2, List.mem_map.mpr ⟨p, hp, rfl⟩, hm⟩

/-- Witness for C3: the test scenario grows the three user columns by
exactly std_lib and std_out, in first-discovery order and without
duplicates, while a scenario referencing only known names leaves the
columns unchanged. -/
theorem matrix_C3_witness :
    add_stl_includes userCols testIncl =
      userCols ++ [ "std_lib", "std_out"] ∧
    (add_stl_includes userCols testIncl).Nodup ∧
    add_stl_includes userCols [([ "file1"], []), ([], [ "file0"])] =
      userCols := by
  obtain ⟨h1, h2, h3, h4, h5⟩ :=
    matrix_C3_columns userCols testIncl (by decide)
  obtain ⟨g1, g2, g3, g4, g5⟩ :=
    matrix_C3_columns userCols [([ "file1"], []), ([], [ "file0"])]
      (by decide)
  refine ⟨?_, h4, g1 (by decide)⟩
  rw [h2]
  decide

/-- Modelled from the spec: fan-out(i) counts the 1-valued cells in row
i across all columns. -/
def fanOut (m : List (List ℕ)) (i : ℕ) : ℕ := (m.getD i []).count 1

/-- Modelled from the spec: fan-in(i) counts the 1-valued cells of
column i restricted to the user-file rows (the rows of the matrix). -/
def fanIn (m : List (List ℕ)) (i : ℕ) : ℕ :=
  (m.map (fun row => row.getD i 0)).count 1

/-- Modelled from the spec: the instability of file i,
`fan-out / (fan-in + fan-out)`, defined as exactly 0 when the
denominator is 0. -/
def instability (m : List (List ℕ)) (i : ℕ) : ℚ :=
  if fanIn m i + fanOut m i = 0 then 0
  else (fanOut m i : ℚ) / ((fanIn m i : ℚ) + (fanOut m i : ℚ))

/-- C6: the instability of a file is fan-out over fan-in plus fan-out,
and a file with no incoming and no outgoing edges has instability
exactly 0 (a defined rational, not an error value). -/
theorem instability_C6 (m : List (List ℕ)) (i : ℕ) :
    (fanIn m i = 0 ∧ fanOut m i = 0 → instability m i = 0) ∧
    (fanIn m i + fanOut m i ≠ 0 →
      instability m i =
        (fanOut m i : ℚ) / ((fanIn m i : ℚ) + (fanOut m i : ℚ))) := by
  constructor
  · rintro ⟨h1, h2⟩
    simp [instability, h1, h2]
  · intro h
    rw [instability, if_neg h]

/-- Witness for C6: the all-zero 2x2 matrix gives instability 0 at row
0, and a matrix whose row 0 has one outgoing and no incoming edge gives
instability 1. -/
theorem instability_C6_witness :
    instability [[0, 0], [0, 0]] 0 = 0 ∧
    instability [[0, 1], [0, 0]] 0 = 1 := by
  constructor
  · exact (instability_C6 [[0, 0], [0, 0]] 0).1 ⟨by decide, by decide⟩
  · have h := (instability_C6 [[0, 1], [0, 0]] 0).2 (by decide)
    have e1 : fanOut [[0, 1], [0, 0]] 0 = 1 := by decide
    have e2 : fanIn [[0, 1], [0, 0]] 0 = 0 := by decide
    rw [h, e1, e2]
    norm_num
